import Mathlib

/-!
Shallow embedding of the `enigma` rotor-cipher library (header `enigma.hpp`):
the `Rotor`, `EnigmaMachine` and `Generator` class templates.  Machine
integers (`std::size_t`, the `IndexT` code-point type) are modelled as `Nat`;
`std::array<Index, base>` tables as `List Nat` read through `List.getD`;
`std::bitset<base>` as `List Bool` with bit `i` at list index `i`.  Stateful
methods become explicit state-passing functions.
-/

namespace Enigma

/-! ### Bitset model (`std::bitset<base>`) -/

/-- Bit test `b[i]` (bits beyond the width read as `false`). -/
def bsTest (l : List Bool) (i : Nat) : Bool :=
  l.getD i false

/-- Population count, `b.count()`. -/
def bsCount (l : List Bool) : Nat :=
  l.count true

/-- Bitwise complement `~b` over the full width. -/
def bsNot (l : List Bool) : List Bool :=
  l.map (fun b => !b)

/-- Bitwise conjunction `a & b`. -/
def bsAnd (a b : List Bool) : List Bool :=
  List.zipWith and a b

/-- Left shift `b << k`: bit `i` of the result is bit `i - k` of `b`
(for `k ≤ i < base`); bits shifted past `base` are discarded. -/
def bsShl (base : Nat) (l : List Bool) (k : Nat) : List Bool :=
  List.take base (List.replicate k false ++ l)

/-- Right shift `b >> k`: bit `i` of the result is bit `i + k` of `b`
(when `i + k < base`), zero-filled at the top. -/
def bsShr (base : Nat) (l : List Bool) (k : Nat) : List Bool :=
  List.take base (List.drop k l ++ List.replicate k false)

/-- The all-ones bitset of width `base`, `~NotchArray{}`
(a value-initialised bitset is all zero, then complemented). -/
def bsAllOnes (base : Nat) : List Bool :=
  bsNot (List.replicate base false)

/-! ### Rotor -/

/-- State of one `Rotor<Index, base>` object.  `forward_cipher`,
`reverse_cipher` and `notches` are set at construction; only `position`
mutates afterwards. -/
structure Rotor where
  forward_cipher : List Nat
  reverse_cipher : List Nat
  notches : List Bool
  position : Nat
  deriving Repr, DecidableEq

/-- Result of one call to a rotor `advance` member: the count handed to the
turnover callback (`knocks = 0` means the callback was not invoked — the
code only calls it with a strictly positive count), the value the member
returns, and the rotor state after the call. -/
structure RotorStep where
  knocks : Nat
  ret : Nat
  rotor : Rotor
  deriving Repr, DecidableEq

/-- The constructor loop `for (i = 0; i < cipher.size(); ++i)
reverse_cipher[cipher[i]] = i;`.  `cipher.size()` is `base` by the template
signature.  The C++ member starts default-initialised (indeterminate); it is
modelled as all zeroes, every cell being overwritten when `cipher` is a
permutation of `[0, base)`. -/
def buildReverse (base : Nat) (cipher : List Nat) : List Nat :=
  (List.range base).foldl (fun rev i => rev.set (cipher.getD i 0) i) (List.replicate base 0)

/-- The constructor `Rotor::Rotor(cipher, notches, callback)`: stores the forward table and
notch set, derives the reverse table, and sets `position` to `0`. -/
def mkRotor (base : Nat) (cipher : List Nat) (notches : List Bool) : Rotor :=
  { forward_cipher := cipher
    reverse_cipher := buildReverse base cipher
    notches := notches
    position := 0 }

/-- Member `Rotor::advance()` (single step): `if (++position == base) position = 0;`
then, if a notch sits at the new position, the turnover callback is invoked
with count `1`; the new position is returned. -/
def rotorAdvance (base : Nat) (r : Rotor) : RotorStep :=
  let p := r.position + 1
  let p := if p = base then 0 else p
  let knocks := if bsTest r.notches p then 1 else 0
  { knocks := knocks, ret := p, rotor := { r with position := p } }

/-- Member `Rotor::advance(steps)` (batch step), translated clause by clause:
`next = position + steps`; `knocks = (next / base) * notches.count()`;
`next %= base`; `mask = ~NotchArray{}`;
`[lead, trail] = make_sorted_array(position, next)` (sorted ascending);
`mask = (mask << (lead + (base - trail))) >> lead`;
`mask = (next < position) ? ~mask : mask`;
`knocks += (notches & mask).count()`; `position = next`; the callback is
invoked with `knocks` iff `knocks > 0`; `position` is returned. -/
def rotorAdvanceSteps (base : Nat) (r : Rotor) (steps : Nat) : RotorStep :=
  let next := r.position + steps
  let knocks := (next / base) * bsCount r.notches
  let next := next % base
  let lead := min r.position next
  let trail := max r.position next
  let mask := bsShr base (bsShl base (bsAllOnes base) (lead + (base - trail))) lead
  let mask := if next < r.position then bsNot mask else mask
  let knocks := knocks + bsCount (bsAnd r.notches mask)
  { knocks := knocks, ret := next, rotor := { r with position := next } }

/-- Iterated single-step `Rotor::advance()`, `n` calls in sequence, accumulating the
total turnover count delivered to the callback across the calls. -/
def rotorAdvanceIter (base : Nat) (r : Rotor) : Nat → Nat × Rotor
  | 0 => (0, r)
  | n + 1 =>
    let s := rotorAdvance base r
    let rest := rotorAdvanceIter base s.rotor n
    (s.knocks + rest.1, rest.2)

/-- The operations that can mutate a rotor after construction. -/
inductive RotorOp where
  | single : RotorOp
  | batch : Nat → RotorOp
  deriving Repr, DecidableEq

/-- Apply one advance operation to a rotor (state only). -/
def applyRotorOp (base : Nat) (r : Rotor) : RotorOp → Rotor
  | RotorOp.single => (rotorAdvance base r).rotor
  | RotorOp.batch s => (rotorAdvanceSteps base r s).rotor

/-- Apply a sequence of advance operations to a rotor. -/
def applyRotorOps (base : Nat) (r : Rotor) (ops : List RotorOp) : Rotor :=
  ops.foldl (applyRotorOp base) r

/-! ### Enigma machine -/

/-- State of one `EnigmaMachine<Index, base, rotor_count>` object. -/
structure Machine where
  rotors : List Rotor
  reflector : List Nat
  deriving Repr, DecidableEq

/-- The turnover cascade set up by the `EnigmaMachine` constructor: rotor `i`
(for `i < rotor_count - 1`) has its callback wired to
`rotors[i + 1].advance(knocks)`; the last rotor keeps the default no-op.
Stepping the head rotor therefore recursively batch-advances the tail
whenever a strictly positive knock count is delivered. -/
def advanceCascade (base : Nat) : List Rotor → Nat → List Rotor
  | [], _ => []
  | r :: rest, steps =>
    let s := rotorAdvanceSteps base r steps
    s.rotor :: (if 0 < s.knocks then advanceCascade base rest s.knocks else rest)

/-- Member `EnigmaMachine::advance(steps = 1)`: `rotors[0].advance(steps);` — only
the first rotor is stepped directly; everything else moves through the
wired callbacks. -/
def machineAdvance (base : Nat) (m : Machine) (steps : Nat) : Machine :=
  { m with rotors := advanceCascade base m.rotors steps }

/-- Member `Rotor::doForwardCipher(val)`: `forward_cipher[(position + val) % base]`. -/
def doForwardCipher (base : Nat) (r : Rotor) (val : Nat) : Nat :=
  r.forward_cipher.getD ((r.position + val) % base) 0

/-- Member `Rotor::doReverseCipher(val)`: `reverse_cipher[(position + val) % base]`. -/
def doReverseCipher (base : Nat) (r : Rotor) (val : Nat) : Nat :=
  r.reverse_cipher.getD ((r.position + val) % base) 0

/-- Member `EnigmaMachine::encode(val)` (a `const` member): forward pass through the
rotors in assembly order, reflector lookup, reverse pass in reverse order. -/
def machineEncode (base : Nat) (m : Machine) (val : Nat) : Nat :=
  let fwd := m.rotors.foldl (fun v r => doForwardCipher base r v) val
  let mid := m.reflector.getD fwd 0
  m.rotors.reverse.foldl (fun v r => doReverseCipher base r v) mid

/-- The member `encode` as a state transformer: being a `const` member calling only
`const` members, it returns its value and leaves the machine unchanged. -/
def encodeOp (base : Nat) (m : Machine) (val : Nat) : Nat × Machine :=
  (machineEncode base m val, m)

/-- Member `EnigmaMachine::encodeNext(val)`: `advance();` (that is, the batch
`advance(1)` through the default argument) `return encode(val);`. -/
def encodeNextOp (base : Nat) (m : Machine) (val : Nat) : Nat × Machine :=
  let m2 := machineAdvance base m 1
  (machineEncode base m2 val, m2)

/-! ### Generator -/

/-- State of one `Generator` object: the referenced machine and the stored
sequence value. -/
structure Generator where
  machine : Machine
  seq_val : Nat
  deriving Repr, DecidableEq

/-- Member `Generator::min()`: `return 0u;` — a `static constexpr` of the class
template, computed from `base` alone, never touching a machine. -/
def genMin (base : Nat) : Nat :=
  0

/-- Member `Generator::max()`: `return base - 1u;` — likewise `static constexpr`. -/
def genMax (base : Nat) : Nat :=
  base - 1

/-- One draw, `Generator::operator()()`:
`seq_val = machine.encodeNext(seq_val); return seq_val;` (the machine is held
by reference, so its advance is visible to the caller). -/
def genDraw (base : Nat) (g : Generator) : Nat × Generator :=
  let s := encodeNextOp base g.machine g.seq_val
  (s.1, { machine := s.2, seq_val := s.1 })

/-- A sequence of `EnigmaMachine::advance(steps)` calls applied in order —
the way the demonstration `main` drives the machine to an arbitrary rotor
configuration (`machine.advance(seed)`) before wrapping it in a `Generator`. -/
def machineAdvances (base : Nat) (m : Machine) (steps : List Nat) : Machine :=
  steps.foldl (machineAdvance base) m

/-- The value and generator state after draw number `n` (counting from `0`):
`genDrawN base g n` performs `n + 1` successive `Generator::operator()()`
calls and yields the last returned value together with the final state, so
ranging over `n` ranges over every value the generator ever produces. -/
def genDrawN (base : Nat) (g : Generator) : Nat → Nat × Generator
  | 0 => genDraw base g
  | n + 1 => genDrawN base (genDraw base g).2 n

/-- The composition the specification ascribes to `encode(val)`, written out
from the specification text for the refinement comparison: the value passed
through each rotor forward lookup `forwardCipher[(position + val) mod base]`
in assembly order, then the reflector table, then each rotor reverse lookup
`reverseCipher[(position + val) mod base]` in reverse assembly order. -/
def specEncode (base : Nat) (m : Machine) (val : Nat) : Nat :=
  let fwd := m.rotors.foldl
    (fun v r => r.forward_cipher.getD ((r.position + v) % base) 0) val
  let mid := m.reflector.getD fwd 0
  m.rotors.reverse.foldl
    (fun v r => r.reverse_cipher.getD ((r.position + v) % base) 0) mid

/-! ### Helper lemmas -/

/-- The wrap in single-step advance is addition modulo the base. -/
theorem step_wrap_eq_mod {base p : Nat} (hp : p < base) :
    (if p + 1 = base then 0 else p + 1) = (p + 1) % base := by
  by_cases h : p + 1 = base
  · rw [if_pos h, h, Nat.mod_self]
  · rw [if_neg h, Nat.mod_eq_of_lt (Nat.lt_of_le_of_ne hp h)]

/-- Conjunction with an all-zero bitset has no set bits. -/
theorem bsCount_and_false (l : List Bool) (n : Nat) :
    bsCount (bsAnd l (List.replicate n false)) = 0 := by
  induction l generalizing n with
  | nil => simp [bsAnd, bsCount]
  | cons a t ih =>
    cases n with
    | zero => simp [bsAnd, bsCount]
    | succ m =>
      rw [List.replicate_succ]
      show bsCount ((a && false) :: bsAnd t (List.replicate m false)) = 0
      simpa [bsCount, List.count_cons] using ih m

/-- Shifting the full width to the left clears the bitset. -/
theorem bsShl_full (base : Nat) (l : List Bool) :
    bsShl base l base = List.replicate base false := by
  have h := List.take_left (List.replicate base false) l
  rw [List.length_replicate] at h
  exact h

/-- Right-shifting an all-zero bitset leaves it all zero. -/
theorem bsShr_zeros (base k : Nat) (hk : k ≤ base) :
    bsShr base (List.replicate base false) k = List.replicate base false := by
  unfold bsShr
  rw [List.drop_replicate, ← List.replicate_add, Nat.sub_add_cancel hk,
    List.take_replicate, min_self]

/-- A full revolution of the batch advance: `advance(base)` delivers exactly
`notches.count()` knocks and leaves the position (and the whole rotor state)
unchanged. -/
theorem rotorAdvanceSteps_full (base : Nat) (r : Rotor) (hb : 0 < base)
    (hp : r.position < base) :
    rotorAdvanceSteps base r base
      = { knocks := bsCount r.notches, ret := r.position, rotor := r } := by
  have h1 : (r.position + base) % base = r.position := by
    rw [Nat.add_mod_right, Nat.mod_eq_of_lt hp]
  have h2 : (r.position + base) / base = 1 := by
    rw [Nat.add_div_right _ hb, Nat.div_eq_of_lt hp]
  have h3 : r.position + (base - r.position) = base := Nat.add_sub_cancel' hp.le
  unfold rotorAdvanceSteps
  simp only [h1, h2, one_mul, min_self, max_self, h3, bsShl_full,
    bsShr_zeros base r.position hp.le, lt_irrefl, if_neg not_false,
    bsCount_and_false, Nat.add_zero]

/-- A rotor advance operation never changes the reverse table. -/
theorem applyRotorOps_reverse_cipher (base : Nat) :
    ∀ (ops : List RotorOp) (r : Rotor),
      (applyRotorOps base r ops).reverse_cipher = r.reverse_cipher := by
  intro ops
  induction ops with
  | nil => intro r; rfl
  | cons op t ih =>
    intro r
    show (applyRotorOps base (applyRotorOp base r op) t).reverse_cipher = _
    rw [ih]
    cases op <;> rfl

/-- Folding index writes over a list preserves the list length. -/
theorem foldl_set_length (F : List Nat) :
    ∀ (idxs : List Nat) (L : List Nat),
      (idxs.foldl (fun rev k => rev.set (F.getD k 0) k) L).length = L.length := by
  intro idxs
  induction idxs with
  | nil => intro L; rfl
  | cons a t ih => intro L; rw [List.foldl_cons, ih, List.length_set]

/-- A value read from a zero-filled table is zero. -/
theorem getD_replicate_zero (n j : Nat) : (List.replicate n (0 : Nat)).getD j 0 = 0 := by
  rw [List.getD_eq_getElem?_getD, List.getElem?_replicate]
  split <;> rfl

/-- Every entry of the derived reverse table stays below the base, as long as
writes come from indices below the base and the table starts that way. -/
theorem foldl_set_getD_lt (base : Nat) (hb : 0 < base) (F : List Nat) :
    ∀ (idxs : List Nat) (L : List Nat), (∀ i ∈ idxs, i < base) →
      (∀ j, L.getD j 0 < base) →
      ∀ j, (idxs.foldl (fun rev k => rev.set (F.getD k 0) k) L).getD j 0 < base := by
  intro idxs
  induction idxs with
  | nil => intro L _ hL j; exact hL j
  | cons a t ih =>
    intro L hmem hL j
    rw [List.foldl_cons]
    refine ih _ (fun i hi => hmem i (List.mem_cons_of_mem a hi)) ?_ j
    intro k
    rw [List.getD_eq_getElem?_getD, List.getElem?_set]
    by_cases hak : F.getD a 0 = k
    · rw [if_pos hak]
      by_cases hlen : F.getD a 0 < L.length
      · rw [if_pos hlen]
        exact hmem a (List.mem_cons_self a t)
      · rw [if_neg hlen]
        exact hb
    · rw [if_neg hak, ← List.getD_eq_getElem?_getD]
      exact hL k

/-- Every entry of `buildReverse` is below the base. -/
theorem buildReverse_getD_lt (base : Nat) (hb : 0 < base) (F : List Nat) (j : Nat) :
    (buildReverse base F).getD j 0 < base := by
  refine foldl_set_getD_lt base hb F (List.range base) _
    (fun i hi => List.mem_range.mp hi) ?_ j
  intro k
  rw [getD_replicate_zero]
  exact hb

/-- The constructor loop makes the reverse table a left inverse of an
injective in-range forward table, one prefix of the loop at a time. -/
theorem buildReverse_fold_inverse (base : Nat) (F : List Nat)
    (hrange : ∀ i, i < base → F.getD i 0 < base)
    (hinj : ∀ i j, i < base → j < base → F.getD i 0 = F.getD j 0 → i = j) :
    ∀ n, n ≤ base → ∀ i, i < n →
      ((List.range n).foldl (fun rev k => rev.set (F.getD k 0) k)
        (List.replicate base 0)).getD (F.getD i 0) 0 = i := by
  intro n
  induction n with
  | zero => intro _ i hi; exact absurd hi (Nat.not_lt_zero i)
  | succ m ih =>
    intro hm i hi
    rw [List.range_succ, List.foldl_append, List.foldl_cons, List.foldl_nil]
    have hmb : m < base := Nat.lt_of_succ_le hm
    have hlen : ((List.range m).foldl (fun rev k => rev.set (F.getD k 0) k)
        (List.replicate base 0)).length = base := by
      rw [foldl_set_length, List.length_replicate]
    by_cases hcase : i = m
    · subst hcase
      rw [List.getD_eq_getElem?_getD, List.getElem?_set_self (by rw [hlen]; exact hrange i hmb)]
      rfl
    · have him : i < m := Nat.lt_of_le_of_ne (Nat.lt_succ_iff.mp hi) hcase
      have hne : F.getD m 0 ≠ F.getD i 0 := by
        intro h
        exact hcase (hinj i m (him.trans hmb) hmb h.symm)
      rw [List.getD_eq_getElem?_getD, List.getElem?_set_ne hne,
        ← List.getD_eq_getElem?_getD]
      exact ih (Nat.le_of_succ_le hm) i him

/-- The cascade only moves positions: the reverse tables of the rotor chain
are unchanged by any cascade advance. -/
theorem advanceCascade_map_reverse (base : Nat) :
    ∀ (l : List Rotor) (s : Nat),
      (advanceCascade base l s).map Rotor.reverse_cipher
        = l.map Rotor.reverse_cipher := by
  intro l
  induction l with
  | nil => intro s; rfl
  | cons r t ih =>
    intro s
    show ((rotorAdvanceSteps base r s).rotor :: _).map Rotor.reverse_cipher = _
    rw [List.map_cons, List.map_cons]
    have h1 : (rotorAdvanceSteps base r s).rotor.reverse_cipher = r.reverse_cipher := rfl
    rw [h1]
    congr 1
    split
    · exact ih _
    · rfl

/-- A reverse pass whose tables all map below the base keeps the running
value below the base. -/
theorem foldl_doReverseCipher_lt (base : Nat) :
    ∀ (l : List Rotor) (x : Nat),
      (∀ r ∈ l, ∀ j, r.reverse_cipher.getD j 0 < base) → x < base →
      l.foldl (fun v r => doReverseCipher base r v) x < base := by
  intro l
  induction l with
  | nil => intro x _ hx; exact hx
  | cons r t ih =>
    intro x hl hx
    rw [List.foldl_cons]
    refine ih _ (fun q hq j => hl q (List.mem_cons_of_mem r hq) j) ?_
    exact hl r (List.mem_cons_self r t) _

/-- The encode result is below the base whenever the reflector and every
reverse table map below the base. -/
theorem machineEncode_lt (base : Nat) (m : Machine)
    (hrev : ∀ r ∈ m.rotors, ∀ j, r.reverse_cipher.getD j 0 < base)
    (hrefl : ∀ j, m.reflector.getD j 0 < base) (val : Nat) :
    machineEncode base m val < base := by
  unfold machineEncode
  refine foldl_doReverseCipher_lt base _ _
    (fun r hr j => hrev r (List.mem_reverse.mp hr) j) (hrefl _)

/-- A table of length `base` whose in-range entries are below the base reads
below the base at every index (out-of-range reads give the default `0`). -/
theorem getD_lt_of_bounds (base : Nat) (hb : 0 < base) (L : List Nat)
    (hl : L.length = base) (hv : ∀ j, j < base → L.getD j 0 < base) :
    ∀ j, L.getD j 0 < base := by
  intro j
  by_cases h : j < base
  · exact hv j h
  · have hlen : L.length ≤ j := by rw [hl]; exact Nat.le_of_not_lt h
    rw [List.getD_eq_getElem?_getD, List.getElem?_eq_none hlen]
    exact hb

/-- Positions stay in range under any sequence of advance operations,
quantified rotor-first for the induction. -/
theorem applyRotorOps_position_lt (base : Nat) (hb : 0 < base) :
    ∀ (ops : List RotorOp) (r : Rotor), r.position < base →
      (applyRotorOps base r ops).position < base := by
  intro ops
  induction ops with
  | nil => intro r hp; exact hp
  | cons op t ih =>
    intro r hp
    show (applyRotorOps base (applyRotorOp base r op) t).position < base
    refine ih _ ?_
    cases op with
    | single =>
      show (if r.position + 1 = base then 0 else r.position + 1) < base
      by_cases h : r.position + 1 = base
      · rw [if_pos h]; exact hb
      · rw [if_neg h]; exact Nat.lt_of_le_of_ne hp h
    | batch s =>
      show (r.position + s) % base < base
      exact Nat.mod_lt _ hb

/-- A machine advance moves only rotor positions, so bounds on the reverse
tables of the rotor chain survive it. -/
theorem advance_preserves_rev_bounds (base : Nat) (m : Machine) (s : Nat)
    (hrev : ∀ r ∈ m.rotors, ∀ j, r.reverse_cipher.getD j 0 < base) :
    ∀ r ∈ (machineAdvance base m s).rotors, ∀ j, r.reverse_cipher.getD j 0 < base := by
  intro r hr j
  have hmem : r.reverse_cipher
      ∈ (advanceCascade base m.rotors s).map Rotor.reverse_cipher :=
    List.mem_map_of_mem Rotor.reverse_cipher hr
  rw [advanceCascade_map_reverse] at hmem
  obtain ⟨r0, hr0, hEq⟩ := List.mem_map.mp hmem
  rw [← hEq]
  exact hrev r0 hr0 j

/-- Reverse-table bounds survive any sequence of machine advances. -/
theorem advances_preserve_rev_bounds (base : Nat) :
    ∀ (advs : List Nat) (m : Machine),
      (∀ r ∈ m.rotors, ∀ j, r.reverse_cipher.getD j 0 < base) →
      ∀ r ∈ (machineAdvances base m advs).rotors, ∀ j, r.reverse_cipher.getD j 0 < base := by
  intro advs
  induction advs with
  | nil => intro m hm; exact hm
  | cons a t ih =>
    intro m hm
    exact ih (machineAdvance base m a) (advance_preserves_rev_bounds base m a hm)

/-- Machine advances never touch the reflector. -/
theorem machineAdvances_reflector (base : Nat) :
    ∀ (advs : List Nat) (m : Machine),
      (machineAdvances base m advs).reflector = m.reflector := by
  intro advs
  induction advs with
  | nil => intro m; rfl
  | cons a t ih => intro m; exact ih (machineAdvance base m a)

/-- Every rotor of a freshly constructed machine carries a derived reverse
table, whose entries are all below the base. -/
theorem fresh_rev_bounds (base : Nat) (hb : 0 < base)
    (cfgs : List (List Nat × List Bool)) :
    ∀ r ∈ cfgs.map (fun c => mkRotor base c.1 c.2), ∀ j,
      r.reverse_cipher.getD j 0 < base := by
  intro r hr j
  obtain ⟨c, hc, hEq⟩ := List.mem_map.mp hr
  rw [← hEq]
  exact buildReverse_getD_lt base hb c.1 j

/-- Every value in the generator's stream stays below the base: the bounds
on the machine's tables are an invariant of the draw loop, each draw
encoding on a machine advanced by one step. -/
theorem genDrawN_lt (base : Nat) :
    ∀ (n : Nat) (g : Generator),
      (∀ r ∈ g.machine.rotors, ∀ j, r.reverse_cipher.getD j 0 < base) →
      (∀ j, g.machine.reflector.getD j 0 < base) →
      (genDrawN base g n).1 < base := by
  intro n
  induction n with
  | zero =>
    intro g hrev hrefl
    show machineEncode base (machineAdvance base g.machine 1) g.seq_val < base
    exact machineEncode_lt base _
      (advance_preserves_rev_bounds base g.machine 1 hrev) hrefl g.seq_val
  | succ k ih =>
    intro g hrev hrefl
    show (genDrawN base (genDraw base g).2 k).1 < base
    refine ih _ ?_ ?_
    · exact advance_preserves_rev_bounds base g.machine 1 hrev
    · exact hrefl

/-! ### Claims -/

/-- C1: the claim — batch `advance(n)` observably equivalent to `n`
single-step `advance()` calls — fails on the code.  Failing input:
`base = 4`, notch set `{1}`, starting position `0`, `n = 1`.  The batch call
delivers no turnover count at all (its bit mask selects the mirrored
position `base - 1 - position` instead of `position + 1`) while one
single-step call delivers a turnover count of `1`; the final positions do
agree. -/
theorem batch_advance_miscounts_turnovers :
    (rotorAdvanceSteps 4 (mkRotor 4 [0, 1, 2, 3] [false, true, false, false]) 1).knocks = 0
    ∧ (rotorAdvanceIter 4 (mkRotor 4 [0, 1, 2, 3] [false, true, false, false]) 1).1 = 1
    ∧ (rotorAdvanceSteps 4 (mkRotor 4 [0, 1, 2, 3] [false, true, false, false]) 1).rotor.position
      = (rotorAdvanceIter 4 (mkRotor 4 [0, 1, 2, 3] [false, true, false, false]) 1).2.position := by
  decide

/-- C2: the machine `advance(steps)` equals the turnover cascade started at
the first rotor (only rotor 0 is stepped directly); advancing the first
rotor by exactly `base` steps (one full revolution) leaves rotor 0 in place
and hands exactly `notchCount(rotor0)` steps to the second rotor, the rest
of the chain moving transitively through the same wired cascade; in
particular the second rotor ends at `(position + notchCount(rotor0)) % base`. -/
theorem machine_advance_cascade (base : Nat) (r0 r1 : Rotor) (rest : List Rotor)
    (reflector : List Nat) (steps : Nat) (hb : 0 < base)
    (h0 : r0.position < base) (hn : 0 < bsCount r0.notches) :
    (machineAdvance base ⟨r0 :: r1 :: rest, reflector⟩ steps).rotors
      = advanceCascade base (r0 :: r1 :: rest) steps
    ∧ (machineAdvance base ⟨r0 :: r1 :: rest, reflector⟩ base).rotors
      = r0 :: advanceCascade base (r1 :: rest) (bsCount r0.notches)
    ∧ ((machineAdvance base ⟨r0 :: r1 :: rest, reflector⟩ base).rotors.getD 1
        (mkRotor base [] [])).position = (r1.position + bsCount r0.notches) % base := by
  have hfull := rotorAdvanceSteps_full base r0 hb h0
  have h2 : (machineAdvance base ⟨r0 :: r1 :: rest, reflector⟩ base).rotors
      = r0 :: advanceCascade base (r1 :: rest) (bsCount r0.notches) := by
    show (rotorAdvanceSteps base r0 base).rotor
        :: (if 0 < (rotorAdvanceSteps base r0 base).knocks
            then advanceCascade base (r1 :: rest) (rotorAdvanceSteps base r0 base).knocks
            else r1 :: rest)
      = r0 :: advanceCascade base (r1 :: rest) (bsCount r0.notches)
    rw [hfull]
    show r0 :: (if 0 < bsCount r0.notches
        then advanceCascade base (r1 :: rest) (bsCount r0.notches) else r1 :: rest)
      = r0 :: advanceCascade base (r1 :: rest) (bsCount r0.notches)
    rw [if_pos hn]
  exact ⟨rfl, h2, by rw [h2]; rfl⟩

/-- Witness for C2 at `base = 3`, rotor 0 with one notch, rotor 1 notchless. -/
theorem machine_advance_cascade_witness :
    (0 : Nat) < 3
    ∧ (mkRotor 3 [0, 1, 2] [true, false, false]).position < 3
    ∧ 0 < bsCount (mkRotor 3 [0, 1, 2] [true, false, false]).notches
    ∧ ((machineAdvance 3 ⟨[mkRotor 3 [0, 1, 2] [true, false, false],
          mkRotor 3 [1, 2, 0] [false, false, false]], [0, 1, 2]⟩ 2).rotors
        = advanceCascade 3 [mkRotor 3 [0, 1, 2] [true, false, false],
            mkRotor 3 [1, 2, 0] [false, false, false]] 2
      ∧ (machineAdvance 3 ⟨[mkRotor 3 [0, 1, 2] [true, false, false],
            mkRotor 3 [1, 2, 0] [false, false, false]], [0, 1, 2]⟩ 3).rotors
        = mkRotor 3 [0, 1, 2] [true, false, false]
          :: advanceCascade 3 [mkRotor 3 [1, 2, 0] [false, false, false]]
              (bsCount (mkRotor 3 [0, 1, 2] [true, false, false]).notches)
      ∧ ((machineAdvance 3 ⟨[mkRotor 3 [0, 1, 2] [true, false, false],
            mkRotor 3 [1, 2, 0] [false, false, false]], [0, 1, 2]⟩ 3).rotors.getD 1
          (mkRotor 3 [] [])).position
        = ((mkRotor 3 [1, 2, 0] [false, false, false]).position
            + bsCount (mkRotor 3 [0, 1, 2] [true, false, false]).notches) % 3) :=
  ⟨by decide, by decide, by decide,
    machine_advance_cascade 3 (mkRotor 3 [0, 1, 2] [true, false, false])
      (mkRotor 3 [1, 2, 0] [false, false, false]) [] [0, 1, 2] 2
      (by decide) (by decide) (by decide)⟩

/-- C3: for `val < base`, `encode(val)` is exactly the composition the
specification describes — forward lookups `forwardCipher[(position + val)
mod base]` in assembly order, the reflector table, then reverse lookups
`reverseCipher[(position + val) mod base]` in reverse assembly order, the
positional offset added to the input index in both directions. -/
theorem encode_matches_spec_composition (base : Nat) (m : Machine) (val : Nat)
    (hv : val < base) :
    machineEncode base m val = specEncode base m val := rfl

/-- Witness for C3 on a two-rotor, base-2 machine. -/
theorem encode_matches_spec_composition_witness :
    (0 : Nat) < 2
    ∧ machineEncode 2 ⟨[mkRotor 2 [1, 0] [false, true], mkRotor 2 [0, 1] [true, false]],
        [1, 0]⟩ 0
      = specEncode 2 ⟨[mkRotor 2 [1, 0] [false, true], mkRotor 2 [0, 1] [true, false]],
        [1, 0]⟩ 0 :=
  ⟨by decide,
    encode_matches_spec_composition 2
      ⟨[mkRotor 2 [1, 0] [false, true], mkRotor 2 [0, 1] [true, false]], [1, 0]⟩ 0
      (by decide)⟩

/-- C4: for a rotor built from a forward permutation table `F` over
`[0, base)`, the derived reverse table satisfies `R[F[i]] = i` for every
`i < base`, and — since advance operations mutate only the position — it
still does after any sequence of advance operations on the rotor. -/
theorem reverse_cipher_inverse_of_forward (base : Nat) (F : List Nat) (N : List Bool)
    (ops : List RotorOp) (i : Nat) (hlen : F.length = base)
    (hrange : ∀ j, j < base → F.getD j 0 < base)
    (hinj : ∀ j, j < base → ∀ k, k < base → F.getD j 0 = F.getD k 0 → j = k)
    (hi : i < base) :
    (applyRotorOps base (mkRotor base F N) ops).reverse_cipher.getD (F.getD i 0) 0 = i := by
  rw [applyRotorOps_reverse_cipher]
  exact buildReverse_fold_inverse base F hrange
    (fun a b ha hb2 hab => hinj a ha b hb2 hab) base le_rfl i hi

/-- Witness for C4 at `base = 4` with the permutation `[2, 0, 3, 1]` after a
single step followed by a batch advance of 5. -/
theorem reverse_cipher_inverse_of_forward_witness :
    ([2, 0, 3, 1] : List Nat).length = 4
    ∧ (∀ j, j < 4 → ([2, 0, 3, 1] : List Nat).getD j 0 < 4)
    ∧ (∀ j, j < 4 → ∀ k, k < 4 →
        ([2, 0, 3, 1] : List Nat).getD j 0 = ([2, 0, 3, 1] : List Nat).getD k 0 → j = k)
    ∧ (2 : Nat) < 4
    ∧ (applyRotorOps 4 (mkRotor 4 [2, 0, 3, 1] [false, true, false, false])
        [RotorOp.single, RotorOp.batch 5]).reverse_cipher.getD
          (([2, 0, 3, 1] : List Nat).getD 2 0) 0 = 2 :=
  ⟨by decide, by decide, by decide, by decide,
    reverse_cipher_inverse_of_forward 4 [2, 0, 3, 1] [false, true, false, false]
      [RotorOp.single, RotorOp.batch 5] 2 (by decide) (by decide) (by decide) (by decide)⟩

/-- C5: `encode` mutates nothing — as a state transformer it returns the
machine unchanged, and a second `encode` of the same value with no
intervening advance returns the same result. -/
theorem encode_is_pure (base : Nat) (m : Machine) (val : Nat) (hv : val < base) :
    (encodeOp base m val).2 = m
    ∧ (encodeOp base (encodeOp base m val).2 val).1 = (encodeOp base m val).1 :=
  ⟨rfl, rfl⟩

/-- Witness for C5 on a one-rotor, base-2 machine. -/
theorem encode_is_pure_witness :
    (1 : Nat) < 2
    ∧ (encodeOp 2 ⟨[mkRotor 2 [1, 0] [false, true]], [1, 0]⟩ 1).2
      = ⟨[mkRotor 2 [1, 0] [false, true]], [1, 0]⟩
    ∧ (encodeOp 2 (encodeOp 2 ⟨[mkRotor 2 [1, 0] [false, true]], [1, 0]⟩ 1).2 1).1
      = (encodeOp 2 ⟨[mkRotor 2 [1, 0] [false, true]], [1, 0]⟩ 1).1 :=
  ⟨by decide,
    (encode_is_pure 2 ⟨[mkRotor 2 [1, 0] [false, true]], [1, 0]⟩ 1 (by decide)).1,
    (encode_is_pure 2 ⟨[mkRotor 2 [1, 0] [false, true]], [1, 0]⟩ 1 (by decide)).2⟩

/-- C6: for `position < base`, single-step `advance()` moves the position to
`(position + 1) % base`, returns that new position, and invokes the
turnover callback with count exactly `1` iff the new position carries a
notch (count `0` standing for no invocation). -/
theorem single_advance_behaviour (base : Nat) (r : Rotor) (hp : r.position < base) :
    (rotorAdvance base r).rotor.position = (r.position + 1) % base
    ∧ (rotorAdvance base r).ret = (r.position + 1) % base
    ∧ ((rotorAdvance base r).knocks = 1
        ↔ bsTest r.notches ((r.position + 1) % base) = true)
    ∧ ((rotorAdvance base r).knocks = 0
        ↔ bsTest r.notches ((r.position + 1) % base) = false) := by
  have hw : (if r.position + 1 = base then 0 else r.position + 1)
      = (r.position + 1) % base := step_wrap_eq_mod hp
  refine ⟨?_, ?_, ?_, ?_⟩
  · show (if r.position + 1 = base then 0 else r.position + 1) = (r.position + 1) % base
    exact hw
  · show (if r.position + 1 = base then 0 else r.position + 1) = (r.position + 1) % base
    exact hw
  · show (if bsTest r.notches (if r.position + 1 = base then 0 else r.position + 1)
        then 1 else 0) = 1 ↔ bsTest r.notches ((r.position + 1) % base) = true
    rw [hw]
    cases h : bsTest r.notches ((r.position + 1) % base) <;> simp [h]
  · show (if bsTest r.notches (if r.position + 1 = base then 0 else r.position + 1)
        then 1 else 0) = 0 ↔ bsTest r.notches ((r.position + 1) % base) = false
    rw [hw]
    cases h : bsTest r.notches ((r.position + 1) % base) <;> simp [h]

/-- Witness for C6 at `base = 3`, position 2 (the wrapping step), notch at 0. -/
theorem single_advance_behaviour_witness :
    (Rotor.mk [0, 1, 2] [0, 1, 2] [true, false, false] 2).position < 3
    ∧ ((rotorAdvance 3 (Rotor.mk [0, 1, 2] [0, 1, 2] [true, false, false] 2)).rotor.position
        = (2 + 1) % 3
      ∧ (rotorAdvance 3 (Rotor.mk [0, 1, 2] [0, 1, 2] [true, false, false] 2)).ret
        = (2 + 1) % 3
      ∧ ((rotorAdvance 3 (Rotor.mk [0, 1, 2] [0, 1, 2] [true, false, false] 2)).knocks = 1
          ↔ bsTest [true, false, false] ((2 + 1) % 3) = true)
      ∧ ((rotorAdvance 3 (Rotor.mk [0, 1, 2] [0, 1, 2] [true, false, false] 2)).knocks = 0
          ↔ bsTest [true, false, false] ((2 + 1) % 3) = false)) :=
  ⟨by decide,
    single_advance_behaviour 3 (Rotor.mk [0, 1, 2] [0, 1, 2] [true, false, false] 2)
      (by decide)⟩

/-- C7: starting from a valid position, any sequence of single-step and
batch advance calls (including `steps = 0` and `steps > base`) leaves the
position strictly below the base. -/
theorem position_range_invariant (base : Nat) (r : Rotor) (ops : List RotorOp)
    (hb : 0 < base) (hp : r.position < base) :
    (applyRotorOps base r ops).position < base :=
  applyRotorOps_position_lt base hb ops r hp

/-- Witness for C7: a zero batch, an oversized batch and single steps. -/
theorem position_range_invariant_witness :
    (0 : Nat) < 3
    ∧ (mkRotor 3 [0, 1, 2] [true, false, false]).position < 3
    ∧ (applyRotorOps 3 (mkRotor 3 [0, 1, 2] [true, false, false])
        [RotorOp.batch 0, RotorOp.single, RotorOp.batch 7, RotorOp.single]).position < 3 :=
  ⟨by decide, by decide,
    position_range_invariant 3 (mkRotor 3 [0, 1, 2] [true, false, false])
      [RotorOp.batch 0, RotorOp.single, RotorOp.batch 7, RotorOp.single]
      (by decide) (by decide)⟩

/-- C8: `encodeNext(val)` is exactly machine `advance()` with the default
argument `steps = 1` (cascade included) followed by `encode(val)` on the
advanced state. -/
theorem encodeNext_advances_then_encodes (base : Nat) (m : Machine) (val : Nat)
    (hv : val < base) :
    encodeNextOp base m val
      = (machineEncode base (machineAdvance base m 1) val, machineAdvance base m 1) := rfl

/-- Witness for C8 on a two-rotor, base-2 machine with notches. -/
theorem encodeNext_advances_then_encodes_witness :
    (0 : Nat) < 2
    ∧ encodeNextOp 2 ⟨[mkRotor 2 [1, 0] [true, true], mkRotor 2 [0, 1] [false, true]],
        [1, 0]⟩ 0
      = (machineEncode 2
          (machineAdvance 2 ⟨[mkRotor 2 [1, 0] [true, true],
            mkRotor 2 [0, 1] [false, true]], [1, 0]⟩ 1) 0,
        machineAdvance 2 ⟨[mkRotor 2 [1, 0] [true, true],
          mkRotor 2 [0, 1] [false, true]], [1, 0]⟩ 1) :=
  ⟨by decide,
    encodeNext_advances_then_encodes 2
      ⟨[mkRotor 2 [1, 0] [true, true], mkRotor 2 [0, 1] [false, true]], [1, 0]⟩ 0
      (by decide)⟩

/-- C9: for a generator over a machine whose rotor tables and reflector are
in-range tables of length `base` — the machine driven to an arbitrary rotor
configuration by any sequence of machine advances, as the repository's own
usage does — and whose seed is below `base`: `min()` is `0` and `max()` is
`base - 1` (computed from `base` alone; for `base = 26` they are `0` and
`25`), each draw stores `machine.encodeNext(value)` and returns that new
value, and every value the generator ever produces (draw number `n`, for
every `n`) lies below `base`. -/
theorem generator_contract (base : Nat) (cfgs : List (List Nat × List Bool))
    (reflector : List Nat) (seed : Nat) (advs : List Nat) (n : Nat) (m : Machine)
    (hb : 0 < base) (hseed : seed < base)
    (hm : m = machineAdvances base ⟨cfgs.map (fun c => mkRotor base c.1 c.2), reflector⟩ advs)
    (hcfg : ∀ c ∈ cfgs, c.1.length = base ∧ c.2.length = base
      ∧ (∀ j, j < base → c.1.getD j 0 < base))
    (hrl : reflector.length = base)
    (hrv : ∀ j, j < base → reflector.getD j 0 < base) :
    genMin base = 0
    ∧ genMax base = base - 1
    ∧ genMin 26 = 0 ∧ genMax 26 = 25
    ∧ genDraw base ⟨m, seed⟩
      = ((encodeNextOp base m seed).1,
          ⟨(encodeNextOp base m seed).2, (encodeNextOp base m seed).1⟩)
    ∧ (genDrawN base ⟨m, seed⟩ n).1 < base := by
  subst hm
  refine ⟨rfl, rfl, rfl, rfl, rfl, ?_⟩
  refine genDrawN_lt base n _ ?_ ?_
  · exact advances_preserve_rev_bounds base advs
      ⟨cfgs.map (fun c => mkRotor base c.1 c.2), reflector⟩
      (fresh_rev_bounds base hb cfgs)
  · intro j
    have h := machineAdvances_reflector base advs
      ⟨cfgs.map (fun c => mkRotor base c.1 c.2), reflector⟩
    show (machineAdvances base
        ⟨cfgs.map (fun c => mkRotor base c.1 c.2), reflector⟩ advs).reflector.getD j 0 < base
    rw [h]
    exact getD_lt_of_bounds base hb reflector hrl hrv j

/-- Witness for C9 on a one-rotor, base-2 machine, pre-advanced by 3 steps,
checking the third draw of the stream. -/
theorem generator_contract_witness :
    (0 : Nat) < 2
    ∧ (1 : Nat) < 2
    ∧ machineAdvances 2 ⟨[mkRotor 2 [1, 0] [false, true]], [1, 0]⟩ [3]
      = machineAdvances 2 ⟨[([1, 0], [false, true])].map (fun c => mkRotor 2 c.1 c.2),
          [1, 0]⟩ [3]
    ∧ (∀ c ∈ [(([1, 0] : List Nat), ([false, true] : List Bool))],
        c.1.length = 2 ∧ c.2.length = 2 ∧ (∀ j, j < 2 → c.1.getD j 0 < 2))
    ∧ ([1, 0] : List Nat).length = 2
    ∧ (∀ j, j < 2 → ([1, 0] : List Nat).getD j 0 < 2)
    ∧ (genMin 2 = 0
      ∧ genMax 2 = 2 - 1
      ∧ genMin 26 = 0 ∧ genMax 26 = 25
      ∧ genDraw 2 ⟨machineAdvances 2 ⟨[mkRotor 2 [1, 0] [false, true]], [1, 0]⟩ [3], 1⟩
        = ((encodeNextOp 2
              (machineAdvances 2 ⟨[mkRotor 2 [1, 0] [false, true]], [1, 0]⟩ [3]) 1).1,
            ⟨(encodeNextOp 2
                (machineAdvances 2 ⟨[mkRotor 2 [1, 0] [false, true]], [1, 0]⟩ [3]) 1).2,
              (encodeNextOp 2
                (machineAdvances 2 ⟨[mkRotor 2 [1, 0] [false, true]], [1, 0]⟩ [3]) 1).1⟩)
      ∧ (genDrawN 2
          ⟨machineAdvances 2 ⟨[mkRotor 2 [1, 0] [false, true]], [1, 0]⟩ [3], 1⟩ 2).1 < 2) :=
  ⟨by decide, by decide, by decide, by decide, by decide, by decide,
    generator_contract 2 [([1, 0], [false, true])] [1, 0] 1 [3] 2
      (machineAdvances 2 ⟨[mkRotor 2 [1, 0] [false, true]], [1, 0]⟩ [3])
      (by decide) (by decide) (by decide) (by decide) (by decide) (by decide)⟩

/-- C10: a rotor's position is exactly `0` immediately after construction
(the constructor takes no starting-position argument), so a freshly
constructed machine has every rotor at position `0`. -/
theorem freshly_constructed_positions_zero (base : Nat) (F : List Nat) (N : List Bool)
    (cfgs : List (List Nat × List Bool)) (reflector : List Nat) :
    (mkRotor base F N).position = 0
    ∧ (Machine.mk (cfgs.map (fun c => mkRotor base c.1 c.2)) reflector).rotors.map
        Rotor.position = List.replicate cfgs.length 0 := by
  refine ⟨rfl, ?_⟩
  show (cfgs.map (fun c => mkRotor base c.1 c.2)).map Rotor.position
    = List.replicate cfgs.length 0
  rw [List.map_map]
  show cfgs.map (fun c => 0) = List.replicate cfgs.length 0
  exact List.map_const' cfgs 0

end Enigma
